import Mathlib

/-!
Verification of the quadrature routines of dask-scipy
(`src/dask_scipy/integrate/_quadrature.py`) against their natural-language
specification.

The code is shallowly embedded over exact rationals. Arrays are modelled
along the integration axis as `List ℚ`: every array operation the code
performs (slicing, elementwise arithmetic, `diff`, guarded `true_divide`,
`sum`) acts independently of the other axes, pointwise in the remaining
coordinates, so a claim about the values along the axis is faithfully
represented on the 1-D fibre. Floating point arithmetic is modelled by
exact rational arithmetic; all concrete values appearing in the spec are
exactly representable.
-/

/-- Elementwise addition, as performed by the array engine on
broadcast-compatible operands. On the degenerate shapes the code produces
(a length-1 operand against a length-0 operand broadcasts to length 0),
truncation to the shorter operand gives the same result. -/
def ladd : List ℚ → List ℚ → List ℚ := List.zipWith (· + ·)

/-- Elementwise multiplication (same conventions as `ladd`). -/
def lmul : List ℚ → List ℚ → List ℚ := List.zipWith (· * ·)

/-- Guarded scalar division: `da.true_divide(p, q, out=zeros, where=q != 0)`
substitutes `0` wherever the divisor is `0` instead of dividing. -/
def safeDivQ (p q : ℚ) : ℚ := if q = 0 then 0 else p / q

/-- Elementwise guarded division. -/
def lsafediv : List ℚ → List ℚ → List ℚ := List.zipWith safeDivQ

/-- Spacings `da.diff(x)`: element `j` is `x[j+1] - x[j]`. -/
def diffL (l : List ℚ) : List ℚ := List.zipWith (· - ·) l.tail l

/-- Python extended slicing `l[start:stop:2]` (the code always slices with
step `slice_step = 2`). Negative bounds count from the end and bounds are
clamped exactly as by CPython `slice.indices`: the number of selected
indices for a positive step is `ceil((stop' - start') / 2)` and the
selected indices are `start', start' + 2, ...`. -/
def pySlice (l : List ℚ) (start stop : ℤ) : List ℚ :=
  let n : ℤ := (l.length : ℤ)
  let s : ℕ := (max (if start < 0 then start + n else start) 0).toNat
  let e : ℕ := (max (min (if stop < 0 then stop + n else stop) n) 0).toNat
  (List.range ((e + 1 - s) / 2)).map fun j => l.getD (s + 2 * j) 0

/-- The helper `_basic_simpson(y, start, stop, x, dx, axis)` on the 1-D
fibre along `axis`. The three strided slices, the regularly spaced branch
`sum(y[slice0] + 4*y[slice1] + y[slice2]) * dx/3`, and the irregularly
spaced branch with its three guarded divisions are translated clause by
clause from the source. -/
def _basic_simpson (y : List ℚ) (start stop : ℤ) (x : Option (List ℚ))
    (dx : ℚ) : ℚ :=
  let y0 := pySlice y start stop
  let y1 := pySlice y (start + 1) (stop + 1)
  let y2 := pySlice y (start + 2) (stop + 2)
  match x with
  | none => (ladd (ladd y0 (y1.map fun q => 4 * q)) y2).sum * (dx / 3)
  | some xs =>
    let h := diffL xs
    let h0 := pySlice h start stop
    let h1 := pySlice h (start + 1) (stop + 1)
    let hsum := ladd h0 h1
    let hprod := lmul h0 h1
    let h0divh1 := lsafediv h0 h1
    let tmp := lmul (hsum.map fun q => q / 6)
      (ladd (ladd
        (lmul y0 (h0divh1.map fun q => 2 - safeDivQ 1 q))
        (lmul y1 (lmul hsum (lsafediv hsum hprod))))
        (lmul y2 (h0divh1.map fun q => 2 - q)))
    tmp.sum

/-- Validation at line 174 of the source: if `x` is given, its extent along
the axis must equal that of `y`. (The rank check at line 171 cannot fail on
the 1-D fibre model, where a given `x` is always rank-compatible.) -/
def xLenOk (y : List ℚ) (x : Option (List ℚ)) : Bool :=
  match x with
  | none => true
  | some xs => decide (xs.length = y.length)

/-- Error message of the length validation (apostrophes elided). -/
def lenMsg : String := "If given, length of x along axis must be the same as y."

/-- Error message of the even-policy validation (apostrophes elided). -/
def evenMsg : String := "Parameter even must be avg, last, or first."

/-- Stands for the IndexError Python raises when the even-sample-count
branch indexes position -1 of an empty axis. -/
def idxMsg : String := "IndexError: index -1 out of bounds on empty axis."

/-- Trapezoidal step for the last interval: `x[-1] - x[-2]` when `x` is
given (`last_dx` in the source), else `dx`. -/
def lastStep (x : Option (List ℚ)) (dx : ℚ) (N : ℕ) : ℚ :=
  match x with
  | some xs => xs.getD (N - 1) 0 - xs.getD (N - 2) 0
  | none => dx

/-- Trapezoidal step for the first interval: `x[1] - x[0]` when `x` is
given (`first_dx` in the source), else `dx`. -/
def firstStep (x : Option (List ℚ)) (dx : ℚ) : ℚ :=
  match x with
  | some xs => xs.getD 1 0 - xs.getD 0 0
  | none => dx

/-- Trapezoidal correction on the last interval,
`0.5 * last_dx * (y[-1] + y[-2])`. -/
def trapLast (y : List ℚ) (x : Option (List ℚ)) (dx : ℚ) : ℚ :=
  1 / 2 * lastStep x dx y.length * (y.getD (y.length - 1) 0 + y.getD (y.length - 2) 0)

/-- Trapezoidal correction on the first interval,
`0.5 * first_dx * (y[1] + y[0])`. -/
def trapFirst (y : List ℚ) (x : Option (List ℚ)) (dx : ℚ) : ℚ :=
  1 / 2 * firstStep x dx * (y.getD 1 0 + y.getD 0 0)

/-- The public `simpson(y, x, dx, axis, even)` on the 1-D fibre along
`axis`. Control flow follows the source line by line: length validation of
`x`; for an even sample count, validation of `even`, the two optional
Simpson-plus-trapezoid computations (`even in ["avg", "first"]` and
`even in ["avg", "last"]`) and halving for `"avg"`; for an odd sample
count, `_basic_simpson` over `[0, N-2]` directly, `even` never being
consulted. -/
def simpson (y : List ℚ) (x : Option (List ℚ)) (dx : ℚ) (even : String) :
    Except String ℚ :=
  if xLenOk y x = false then .error lenMsg
  else if y.length % 2 = 0 then
    if even ≠ "avg" ∧ even ≠ "last" ∧ even ≠ "first" then .error evenMsg
    else if y.length = 0 then .error idxMsg
    else
      let val := (if even = "avg" ∨ even = "first" then trapLast y x dx else 0)
               + (if even = "avg" ∨ even = "last" then trapFirst y x dx else 0)
      let result :=
          (if even = "avg" ∨ even = "first" then
            _basic_simpson y 0 ((y.length : ℤ) - 3) x dx else 0)
        + (if even = "avg" ∨ even = "last" then
            _basic_simpson y 1 ((y.length : ℤ) - 2) x dx else 0)
      if even = "avg" then .ok (result / 2 + val / 2) else .ok (result + val)
  else .ok (_basic_simpson y 0 ((y.length : ℤ) - 2) x dx)

/-- Decidable equality of results, so that concrete runs of the model can
be checked by evaluation. -/
instance {ε α : Type} [DecidableEq ε] [DecidableEq α] : DecidableEq (Except ε α)
  | .error e, .error f =>
    if h : e = f then .isTrue (congrArg Except.error h)
    else .isFalse fun c => h (Except.error.inj c)
  | .error _, .ok _ => .isFalse fun c => Except.noConfusion c
  | .ok _, .error _ => .isFalse fun c => Except.noConfusion c
  | .ok a, .ok b =>
    if h : a = b then .isTrue (congrArg Except.ok h)
    else .isFalse fun c => h (Except.ok.inj c)

/-- Rational range `0, 1, ..., n-1`, the model of `da.arange(n)`. -/
def qrange (n : ℕ) : List ℚ := (List.range n).map fun i : ℕ => (i : ℚ)

/-- The fixed table `_builtincoeffs` of precomputed rational Newton-Cotes
coefficients, keyed by the order `N` for `1 ≤ N ≤ 14`: numerator `na`,
denominator `daa`, integer weight vector `vi`, error numerator `nb`,
error denominator `db`; weights are `na * vi / daa` and the error
coefficient is `nb / db`. Reproduced value for value from the source. -/
def _builtincoeffs : ℕ → Option (ℤ × ℤ × List ℤ × ℤ × ℤ)
  | 1 => some (1, 2, [1, 1], -1, 12)
  | 2 => some (1, 3, [1, 4, 1], -1, 90)
  | 3 => some (3, 8, [1, 3, 3, 1], -3, 80)
  | 4 => some (2, 45, [7, 32, 12, 32, 7], -8, 945)
  | 5 => some (5, 288, [19, 75, 50, 50, 75, 19], -275, 12096)
  | 6 => some (1, 140, [41, 216, 27, 272, 27, 216, 41], -9, 1400)
  | 7 => some (7, 17280, [751, 3577, 1323, 2989, 2989, 1323, 3577, 751], -8183, 518400)
  | 8 => some (4, 14175, [989, 5888, -928, 10496, -4540, 10496, -928, 5888, 989],
      -2368, 467775)
  | 9 => some (9, 89600,
      [2857, 15741, 1080, 19344, 5778, 5778, 19344, 1080, 15741, 2857], -4671, 394240)
  | 10 => some (5, 299376,
      [16067, 106300, -48525, 272400, -260550, 427368, -260550, 272400, -48525,
        106300, 16067],
      -673175, 163459296)
  | 11 => some (11, 87091200,
      [2171465, 13486539, -3237113, 25226685, -9595542, 15493566, 15493566,
        -9595542, 25226685, -3237113, 13486539, 2171465],
      -2224234463, 237758976000)
  | 12 => some (1, 5255250,
      [1364651, 9903168, -7587864, 35725120, -51491295, 87516288, -87797136,
        87516288, -51491295, 35725120, -7587864, 9903168, 1364651],
      -3012, 875875)
  | 13 => some (13, 402361344000,
      [8181904909, 56280729661, -31268252574, 156074417954, -151659573325,
        206683437987, -43111992612, -43111992612, 206683437987, -151659573325,
        156074417954, -31268252574, 56280729661, 8181904909],
      -2639651053, 344881152000)
  | 14 => some (7, 2501928000,
      [90241897, 710986864, -770720657, 3501442784, -6625093363, 12630121616,
        -16802270373, 19534438464, -16802270373, 12630121616, -6625093363,
        3501442784, -770720657, 710986864, 90241897],
      -3740727473, 1275983280000)
  | _ => none

/-- Errors `newton_cotes` can raise: the range ValueError of the position
validation, and the LinAlgError the matrix inversion raises on a singular
matrix. -/
inductive NCErr : Type
  | range : NCErr
  | singular : NCErr
deriving DecidableEq

/-- Argument `rn` of `newton_cotes`: Python distinguishes a sized sequence
of positions from a bare integer order by whether `len(rn)` raises
TypeError (the try/except at lines 460-469). -/
inductive NCInput : Type
  | order : ℕ → NCInput
  | positions : List ℚ → NCInput
deriving DecidableEq

/-- Dot product of two coefficient vectors. -/
def dotL (a b : List ℚ) : ℚ := (lmul a b).sum

/-- Scale a matrix row by a scalar. -/
def rowScale (c : ℚ) (r : List ℚ) : List ℚ := r.map fun q => c * q

/-- Subtract one matrix row from another elementwise. -/
def rowSub (r s : List ℚ) : List ℚ := List.zipWith (· - ·) r s

/-- Matrix product of row-major rational matrices, the model of `dot`. -/
def matMul (A B : List (List ℚ)) : List (List ℚ) :=
  A.map fun row => B.transpose.map fun col => dotL row col

/-- Matrix difference. -/
def matSub (A B : List (List ℚ)) : List (List ℚ) := List.zipWith rowSub A B

/-- Scalar multiple of a matrix. -/
def matSmul (c : ℚ) (A : List (List ℚ)) : List (List ℚ) := A.map (rowScale c)

/-- Identity matrix of size n. -/
def identityMat (n : ℕ) : List (List ℚ) :=
  (List.range n).map fun i => (List.range n).map fun j => if i = j then (1 : ℚ) else 0

/-- Eliminate the entry in column `col` from every row using pivot row `p`
(whose entry in `col` is 1). -/
def elimOthers (p : List ℚ) (col : ℕ) (rows : List (List ℚ)) : List (List ℚ) :=
  rows.map fun r => rowSub r (rowScale (r.getD col 0) p)

/-- Gauss-Jordan elimination on the augmented rows, one column per fuel
step: pick a row with a nonzero entry in the current column, normalize it,
eliminate the column everywhere else, recurse. Returns `none` when no
pivot exists (singular matrix, where `da.linalg.inv` raises). -/
def gjAux : ℕ → ℕ → List (List ℚ) → List (List ℚ) → Option (List (List ℚ))
  | 0, _, done, _ => some done
  | fuel + 1, col, done, rest =>
    match rest.findIdx? fun r => decide (r.getD col 0 ≠ 0) with
    | none => none
    | some idx =>
      let r := rest.getD idx []
      let p := rowScale (r.getD col 0)⁻¹ r
      gjAux fuel (col + 1) (elimOthers p col done ++ [p])
        (elimOthers p col (rest.eraseIdx idx))

/-- Exact matrix inverse by Gauss-Jordan elimination, the rational model
of `da.linalg.inv`; `none` models the LinAlgError on a singular matrix. -/
def gaussInv (A : List (List ℚ)) : Option (List (List ℚ)) :=
  let n := A.length
  (gjAux n 0 [] (List.zipWith (· ++ ·) A (identityMat n))).map fun rows =>
    rows.map (List.drop n)

/-- One Newton-Schulz refinement step `Cinv = 2*Cinv - Cinv.dot(C).dot(Cinv)`
(the loop at lines 484-485 runs it twice to improve the precision of the
floating-point inverse; on the exact inverse it is the identity, but it is
kept to mirror the source). -/
def nsRefine (C Cinv : List (List ℚ)) : List (List ℚ) :=
  matSub (matSmul 2 Cinv) (matMul (matMul Cinv C) Cinv)

/-- The non-table path of `newton_cotes` (lines 476-500): validate that
the positions start at 0 and end at N, normalize to `[-1, 1]`, build the
Vandermonde-like matrix `C[i][j] = ti[j] ** i`, invert it, refine the
inverse twice, contract the even-indexed columns against `2/(2k+1)`, and
form the error coefficient. The final factor
`exp(power*log(N) - gammaln(power+1))` equals `N^power / power!` exactly;
the float log-space computation is modelled by that exact rational.
`ncMatrix` builds the matrix from the normalized positions. -/
def ncMatrix (N : ℕ) (rn : List ℚ) : List (List ℚ) :=
  let yi := rn.map fun q => q / (N : ℚ)
  let ti := yi.map fun t => 2 * t - 1
  (List.range (N + 1)).map fun i => ti.map fun t => t ^ i

/-- Weights and error coefficient computed from the (refined) inverse of
the Vandermonde-like matrix (the body of lines 484-500). -/
def nonTableBody (N : ℕ) (rn : List ℚ) (equal : Bool) (C0 : List (List ℚ)) :
    List ℚ × ℚ :=
  let yi := rn.map fun q => q / (N : ℚ)
  let C := ncMatrix N rn
  let Cinv := nsRefine C (nsRefine C C0)
  let vec := (List.range (N / 2 + 1)).map fun j => (2 : ℚ) / (2 * j + 1)
  let ai := Cinv.map fun row =>
    dotL ((List.range (N / 2 + 1)).map fun j => row.getD (2 * j) 0) vec * ((N : ℚ) / 2)
  let power := if N % 2 = 0 ∧ equal = true then N + 2 else N + 1
  let BN0 : ℚ := if N % 2 = 0 ∧ equal = true
    then (N : ℚ) / ((N : ℚ) + 3) else (N : ℚ) / ((N : ℚ) + 2)
  let BN := BN0 - dotL (yi.map fun q => q ^ power) ai
  let fac := (N : ℚ) ^ power / (Nat.factorial power : ℚ)
  (ai, BN * fac)

/-- Validation and dispatch of the non-table path. -/
def nonTable (N : ℕ) (rn : List ℚ) (equal : Bool) : Except NCErr (List ℚ × ℚ) :=
  if rn.headD 0 ≠ 0 ∨ rn.getLastD 0 ≠ (N : ℚ) then .error .range
  else
    match gaussInv (ncMatrix N rn) with
    | none => .error .singular
    | some C0 => .ok (nonTableBody N rn equal C0)

/-- Input resolution of `newton_cotes` (lines 460-469): a bare integer
order always becomes the equally spaced `0..N`; a sized sequence keeps its
positions, with `equal` forced to 1 either by the caller or by the
unit-spacing auto-detection `da.all(da.diff(rn) == 1)`; when the caller
passes a truthy `equal`, the positions are replaced by `arange(N+1)`.
Result: `(N, effective rn, effective equal)`. (The model takes
`N = len(rn) - 1` in ℕ; the degenerate empty-positions call, where Python
computes `N = -1` and then fails with an IndexError, is outside the claims
and excluded by nonemptiness hypotheses.) -/
def ncResolve : NCInput → Bool → ℕ × List ℚ × Bool
  | .order n, _ => (n, qrange (n + 1), true)
  | .positions rn, equal =>
    let N := rn.length - 1
    if equal then (N, qrange (N + 1), true)
    else if (diffL rn).all fun d => decide (d = 1) then (N, rn, true)
    else (N, rn, false)

/-- The public `newton_cotes(rn, equal)`: resolve the input, then use the
precomputed table when the data is equally spaced with `N` in the table
(`if equal and N in _builtincoeffs`), else run the non-table path. -/
def newton_cotes (inp : NCInput) (equal : Bool) : Except NCErr (List ℚ × ℚ) :=
  let r := ncResolve inp equal
  match _builtincoeffs r.1, r.2.2 with
  | some (na, daa, vi, nb, db), true =>
    .ok (vi.map fun v => (na : ℚ) * (v : ℚ) / (daa : ℚ), (nb : ℚ) / (db : ℚ))
  | some _, false => nonTable r.1 r.2.1 r.2.2
  | none, _ => nonTable r.1 r.2.1 r.2.2

/-- An immutable n-dimensional array handle: a shape and the row-major
data. A dask reshape returns a new handle over the same data; nothing
mutates in place. -/
structure NdArr : Type where
  shape : List ℕ
  data : List ℚ
deriving DecidableEq

/-- Reshape of an array handle (`x.reshape(shape)`): same data, new shape. -/
def reshape (a : NdArr) (s : List ℕ) : NdArr := ⟨s, a.data⟩

/-- The bookkeeping `simpson` performs on a caller-supplied `x` (lines
161-169 and 227-228 of the source): when `x` is 1-D it is rebound to a
broadcast-compatible reshape `shapex` (all ones except `x.shape[0]` at
position `axis`), and rebound back to the saved original shape before
returning. This function is the value held by the local name `x` when
`simpson` returns. -/
def simpsonXBookkeeping (x : NdArr) (nd : ℕ) (axis : ℕ) : NdArr :=
  if x.shape.length = 1 then
    let shapex := (List.replicate nd 1).set axis (x.shape.headD 0)
    reshape (reshape x shapex) x.shape
  else x


/-! Helper lemmas about the list plumbing. -/

/-- Characterization of a step-2 Python slice with nonnegative in-range
bounds: it selects `l[a], l[a+2], ...` below `b`. -/
theorem pySlice_char (l : List ℚ) (a b : ℕ) (hb : b ≤ l.length) :
    pySlice l (a : ℤ) (b : ℤ) =
      (List.range ((b + 1 - a) / 2)).map fun j => l.getD (a + 2 * j) 0 := by
  have h1 : ¬ ((a : ℤ) < 0) := by omega
  have h2 : ¬ ((b : ℤ) < 0) := by omega
  have e1 : (max (a : ℤ) 0).toNat = a := by omega
  have e2 : (max (min (b : ℤ) (l.length : ℤ)) 0).toNat = b := by omega
  simp only [pySlice, if_neg h1, if_neg h2, e1, e2]

/-- Zipping two maps over the same index list is a single map. -/
theorem zipWith_map_same {α β γ δ : Type} (f : β → γ → δ) (g : α → β) (h : α → γ) :
    ∀ l : List α, List.zipWith f (l.map g) (l.map h) = l.map fun a => f (g a) (h a)
  | [] => rfl
  | a :: t => by
    simp only [List.map_cons, List.zipWith_cons_cons, zipWith_map_same f g h t]

/-- Element selection from an all-zero list is zero (also out of range,
where the default is taken). -/
theorem getD_replicate0 : ∀ (k i : ℕ), (List.replicate k (0 : ℚ)).getD i 0 = 0
  | 0, _ => rfl
  | k + 1, 0 => rfl
  | k + 1, i + 1 => by
    simp only [List.replicate_succ, List.getD_cons_succ]
    exact getD_replicate0 k i

/-- In-range element selection from a constant list. -/
theorem getD_replicate (c : ℚ) : ∀ (n i : ℕ), i < n → (List.replicate n c).getD i 0 = c
  | 0, _, h => absurd h (by omega)
  | n + 1, 0, _ => rfl
  | n + 1, i + 1, h => by
    simp only [List.replicate_succ, List.getD_cons_succ]
    exact getD_replicate c n i (by omega)

/-- Zipping two constant lists gives a constant list of the shorter length. -/
theorem zipWith_replicate_min {α β γ : Type} (f : α → β → γ) (a : α) (b : β) :
    ∀ (n m : ℕ), List.zipWith f (List.replicate n a) (List.replicate m b) =
      List.replicate (min n m) (f a b)
  | 0, _ => by simp
  | _ + 1, 0 => by simp
  | n + 1, m + 1 => by
    simp only [List.replicate_succ, List.zipWith_cons_cons,
      zipWith_replicate_min f a b n m]
    rw [Nat.succ_min_succ]
    rfl

/-- Spacings of a constant position list are all zero. -/
theorem diffL_replicate (n : ℕ) (c : ℚ) :
    diffL (List.replicate n c) = List.replicate (n - 1) 0 := by
  cases n with
  | zero => rfl
  | succ m =>
    simp only [diffL, List.tail_replicate, zipWith_replicate_min, sub_self,
      Nat.succ_sub_one]
    congr 1
    omega

/-- Every element of a slice of an all-zero list is zero. -/
theorem mem_pySlice_zero {k : ℕ} {a b : ℤ} :
    ∀ q ∈ pySlice (List.replicate k (0 : ℚ)) a b, q = 0 := by
  intro q hq
  simp only [pySlice, List.mem_map] at hq
  obtain ⟨j, _, rfl⟩ := hq
  exact getD_replicate0 k _

/-- Elementwise sum of two all-zero lists is all zero. -/
theorem all_zero_ladd : ∀ {l1 l2 : List ℚ}, (∀ q ∈ l1, q = 0) → (∀ q ∈ l2, q = 0) →
    ∀ q ∈ ladd l1 l2, q = 0 := by
  intro l1
  induction l1 with
  | nil => intro l2 _ _ q hq; simp [ladd] at hq
  | cons a t ih =>
    intro l2 h1 h2 q hq
    cases l2 with
    | nil => simp [ladd] at hq
    | cons b t2 =>
      simp only [ladd, List.zipWith_cons_cons, List.mem_cons] at hq
      rcases hq with h | h
      · rw [h, h1 a (by simp), h2 b (by simp)]; ring
      · exact ih (fun q hq => h1 q (by simp [hq])) (fun q hq => h2 q (by simp [hq])) q h

/-- Scaling an all-zero list by one sixth keeps it all zero. -/
theorem all_zero_map_div6 {l : List ℚ} (h : ∀ q ∈ l, q = 0) :
    ∀ q ∈ l.map (fun q => q / 6), q = 0 := by
  intro q hq
  simp only [List.mem_map] at hq
  obtain ⟨p, hp, rfl⟩ := hq
  rw [h p hp]
  norm_num

/-- An elementwise product whose left factor is all zero sums to zero. -/
theorem sum_lmul_zero_left : ∀ (l1 l2 : List ℚ), (∀ q ∈ l1, q = 0) →
    (lmul l1 l2).sum = 0
  | [], _, _ => rfl
  | _ :: _, [], _ => rfl
  | a :: t, b :: t2, h => by
    have ih := sum_lmul_zero_left t t2 (fun q hq => h q (by simp [hq]))
    simp only [lmul, List.zipWith_cons_cons, List.sum_cons] at ih ⊢
    rw [h a (by simp), ih]
    ring

/-- On a constant position array every spacing is zero, so every term of
the irregular Simpson formula vanishes through the guarded divisions. -/
theorem basic_simpson_const_x (y : List ℚ) (start stop : ℤ) (n : ℕ) (c dx : ℚ) :
    _basic_simpson y start stop (some (List.replicate n c)) dx = 0 := by
  simp only [_basic_simpson, diffL_replicate]
  exact sum_lmul_zero_left _ _
    (all_zero_map_div6 (all_zero_ladd mem_pySlice_zero mem_pySlice_zero))

/-! Claims C1, C9, C10. -/

/-- C1 counterexample: for an odd sample count the invalid-parameter error
is not raised at all; with the three odd samples `[1, 1, 1]` and the
unsupported policy string `"bogus"`, `simpson` returns normally (value 2)
instead of failing, refuting the claim that every call with an invalid
`even` fails for every sample count. -/
theorem simpson_C1_counterexample :
    simpson [1, 1, 1] none 1 "bogus" = .ok 2 := by
  with_unfolding_all decide

/-- C1 (amended): the invalid-parameter validation of `even` runs only
when the sample count along the axis is even; in that case a call whose
`even` is not one of avg, last, first fails eagerly with the
invalid-parameter error (no result is produced). For an odd sample count
`even` is never consulted. -/
theorem simpson_C1_amended (y : List ℚ) (x : Option (List ℚ)) (dx : ℚ) (even : String)
    (hx : xLenOk y x = true) (hN : y.length % 2 = 0)
    (hbad : even ≠ "avg" ∧ even ≠ "last" ∧ even ≠ "first") :
    simpson y x dx even = .error evenMsg := by
  unfold simpson
  rw [if_neg (by simp [hx]), if_pos hN, if_pos hbad]

/-- Witness for the amended C1 at the concrete even-count input `[0, 1]`
with the unsupported policy `"whatever"`. -/
theorem simpson_C1_amended_witness :
    simpson [0, 1] none 1 "whatever" = .error evenMsg :=
  simpson_C1_amended [0, 1] none 1 "whatever" (by decide) (by decide) (by decide)

/-- C9: for an odd sample count along the axis the `even` argument is
never consulted: any two policy strings (including ones outside
avg, first, last) give identical results, and the call returns normally
rather than raising. -/
theorem simpson_C9 (y : List ℚ) (x : Option (List ℚ)) (dx : ℚ) (e1 e2 : String)
    (hx : xLenOk y x = true) (hodd : y.length % 2 = 1) :
    simpson y x dx e1 = simpson y x dx e2 ∧ ∃ r, simpson y x dx e1 = Except.ok r := by
  have h0 : ¬ (y.length % 2 = 0) := by omega
  unfold simpson
  rw [if_neg (by simp [hx]), if_neg h0, if_neg (by simp [hx]), if_neg h0]
  exact ⟨rfl, _, rfl⟩

/-- Witness for C9 at the odd-count input `[0, 1, 2]`, comparing the
unsupported policy `"bogus"` with the default `"avg"`. -/
theorem simpson_C9_witness :
    simpson [0, 1, 2] none 1 "bogus" = simpson [0, 1, 2] none 1 "avg" ∧
      ∃ r, simpson [0, 1, 2] none 1 "bogus" = Except.ok r :=
  simpson_C9 [0, 1, 2] none 1 "bogus" "avg" (by decide) (by decide)

/-- C10: `simpson` leaves the caller's arrays untouched. Arrays are
immutable handles and `reshape` returns a fresh handle, so the value held
by the local name `x` on exit, after the 1-D broadcast reshape and the
reshape back to the saved shape (`simpsonXBookkeeping`), is exactly the
caller's `x`; `y` is only ever read. -/
theorem simpson_C10 (x : NdArr) (nd axis : ℕ) : simpsonXBookkeeping x nd axis = x := by
  cases x with
  | mk s d =>
    unfold simpsonXBookkeeping reshape
    split <;> rfl

/-- On the regular-spacing branch with an odd sample count, the basic
Simpson helper over `[0, N-2]` is the paired-interval sum
`dx/3 * sum_i (y[2i] + 4*y[2i+1] + y[2i+2])`. -/
theorem basic_simpson_regular (y : List ℚ) (dx : ℚ)
    (h1 : y.length % 2 = 1) (h3 : 3 ≤ y.length) :
    _basic_simpson y 0 ((y.length : ℤ) - 2) none dx =
      dx / 3 * ((List.range ((y.length - 1) / 2)).map fun i =>
        y.getD (2 * i) 0 + 4 * y.getD (2 * i + 1) 0 + y.getD (2 * i + 2) 0).sum := by
  have c0 : pySlice y 0 ((y.length : ℤ) - 2) =
      (List.range ((y.length - 1) / 2)).map fun j => y.getD (0 + 2 * j) 0 := by
    rw [show ((y.length : ℤ) - 2) = ((y.length - 2 : ℕ) : ℤ) by omega,
      show (0 : ℤ) = ((0 : ℕ) : ℤ) from rfl,
      pySlice_char y 0 (y.length - 2) (by omega),
      show y.length - 2 + 1 - 0 = y.length - 1 from by omega]
  have c1 : pySlice y (0 + 1) ((y.length : ℤ) - 2 + 1) =
      (List.range ((y.length - 1) / 2)).map fun j => y.getD (1 + 2 * j) 0 := by
    rw [show ((y.length : ℤ) - 2 + 1) = ((y.length - 1 : ℕ) : ℤ) by omega,
      show ((0 : ℤ) + 1) = ((1 : ℕ) : ℤ) from rfl,
      pySlice_char y 1 (y.length - 1) (by omega),
      show y.length - 1 + 1 - 1 = y.length - 1 from by omega]
  have c2 : pySlice y (0 + 2) ((y.length : ℤ) - 2 + 2) =
      (List.range ((y.length - 1) / 2)).map fun j => y.getD (2 + 2 * j) 0 := by
    rw [show ((y.length : ℤ) - 2 + 2) = ((y.length : ℕ) : ℤ) by omega,
      show ((0 : ℤ) + 2) = ((2 : ℕ) : ℤ) from rfl,
      pySlice_char y 2 y.length (by omega),
      show y.length + 1 - 2 = y.length - 1 from by omega]
  simp only [_basic_simpson, c0, c1, c2, ladd, List.map_map]
  rw [zipWith_map_same, zipWith_map_same]
  rw [mul_comm]
  congr 2
  apply List.map_congr_left
  intro j _
  simp only [Function.comp_apply]
  rw [show 0 + 2 * j = 2 * j from by omega, show 1 + 2 * j = 2 * j + 1 from by omega,
    show 2 + 2 * j = 2 * j + 2 from by omega]

/-- C2: for 1-D data with an odd sample count at least 3 and no position
array, `simpson` is the paired-interval Simpson sum
`dx/3 * sum_i (y[2i] + 4*y[2i+1] + y[2i+2])` for `i` up to `(N-3)/2`;
in particular `simpson(arange(17))` is 128, `simpson(arange(17), dx=0.5)`
is 64, and `simpson(arange(17), x=linspace(0,4,17))` is 32. -/
theorem simpson_C2 :
    (∀ (y : List ℚ) (dx : ℚ), y.length % 2 = 1 → 3 ≤ y.length →
      simpson y none dx "avg" =
        .ok (dx / 3 * ((List.range ((y.length - 1) / 2)).map fun i =>
          y.getD (2 * i) 0 + 4 * y.getD (2 * i + 1) 0 + y.getD (2 * i + 2) 0).sum)) ∧
    simpson (qrange 17) none 1 "avg" = .ok 128 ∧
    simpson (qrange 17) none (1 / 2) "avg" = .ok 64 ∧
    simpson (qrange 17) (some ((List.range 17).map fun i : ℕ => (i : ℚ) / 4)) 1 "avg"
      = .ok 32 := by
  refine ⟨?_, by with_unfolding_all decide, by with_unfolding_all decide,
    by with_unfolding_all decide⟩
  intro y dx h1 h3
  have h0 : ¬ (y.length % 2 = 0) := by omega
  unfold simpson
  rw [if_neg (by simp [xLenOk]), if_neg h0, basic_simpson_regular y dx h1 h3]

/-- Witness for C2 at the concrete odd-count input `[0, 1, 2]` with
spacing 6: the instantiated formula evaluates to 12. -/
theorem simpson_C2_witness : simpson [0, 1, 2] none 6 "avg" = .ok 12 := by
  have h := simpson_C2.1 [0, 1, 2] 6 (by decide) (by decide)
  rw [h]
  with_unfolding_all decide

/-- C3: the irregular-spacing Simpson path substitutes 0 for every guarded
quotient with a zero divisor (`h1 = 0`, `h0*h1 = 0`, or `h0/h1 = 0`)
instead of dividing; consequently a single-sample input yields 0 for any
valid positions, and any input whose positions are constant along the axis
(all spacings zero) yields 0 without error, for every valid `even` policy
and sample count at least 1. -/
theorem simpson_C3 :
    (∀ p : ℚ, safeDivQ p 0 = 0) ∧
    (∀ (c : ℚ) (x : Option (List ℚ)) (dx : ℚ) (even : String),
      xLenOk [c] x = true → simpson [c] x dx even = .ok 0) ∧
    (∀ (y : List ℚ) (c : ℚ) (dx : ℚ) (even : String), 1 ≤ y.length →
      even = "avg" ∨ even = "last" ∨ even = "first" →
      simpson y (some (List.replicate y.length c)) dx even = .ok 0) := by
  refine ⟨fun p => rfl, ?_, ?_⟩
  · intro c x dx even hx
    cases x with
    | none =>
      unfold simpson
      rw [if_neg (by simp [xLenOk]), if_neg (by simp)]
      simp [_basic_simpson, pySlice, ladd]
    | some xs =>
      have h1 : xs.length = 1 := by simpa [xLenOk] using hx
      obtain ⟨a, rfl⟩ := List.length_eq_one.mp h1
      unfold simpson
      rw [if_neg (by simp [xLenOk]), if_neg (by simp)]
      simp [_basic_simpson, pySlice, ladd, lmul, diffL]
  · intro y c dx even h1 heven
    have hlenx : (List.replicate y.length c).length = y.length := by simp
    have hxok : ¬ (xLenOk y (some (List.replicate y.length c)) = false) := by
      simp [xLenOk, hlenx]
    have hgood : ¬ (even ≠ "avg" ∧ even ≠ "last" ∧ even ≠ "first") := by
      rcases heven with h | h | h <;> simp [h]
    by_cases hpar : y.length % 2 = 0
    · have h2 : 2 ≤ y.length := by omega
      have h0 : ¬ (y.length = 0) := by omega
      have htL : trapLast y (some (List.replicate y.length c)) dx = 0 := by
        simp only [trapLast, lastStep]
        rw [getD_replicate c y.length (y.length - 1) (by omega),
          getD_replicate c y.length (y.length - 2) (by omega)]
        ring
      have htF : trapFirst y (some (List.replicate y.length c)) dx = 0 := by
        simp only [trapFirst, firstStep]
        rw [getD_replicate c y.length 1 (by omega),
          getD_replicate c y.length 0 (by omega)]
        ring
      unfold simpson
      rw [if_neg hxok, if_pos hpar, if_neg hgood, if_neg h0]
      simp [htL, htF, basic_simpson_const_x]
    · unfold simpson
      rw [if_neg hxok, if_neg hpar, basic_simpson_const_x]

/-- Witness for C3 at the constant positions `[3, 3, 3, 3]` (even count)
and `[3]` (single sample), as in the regression tests. -/
theorem simpson_C3_witness :
    simpson [9, 9, 9, 9] (some (List.replicate 4 3)) 1 "avg" = .ok 0 ∧
      simpson [7] (some [3]) 1 "avg" = .ok 0 :=
  ⟨simpson_C3.2.2 [9, 9, 9, 9] 3 1 "avg" (by decide) (Or.inl rfl),
    simpson_C3.2.1 7 (some [3]) 1 "avg" (by decide)⟩

/-- Closed form of the even-count branch under the first policy: basic
Simpson over the first intervals plus the last-interval trapezoid. -/
theorem simpson_first_eq (y : List ℚ) (x : Option (List ℚ)) (dx : ℚ)
    (hx : xLenOk y x = true) (hN : y.length % 2 = 0) (h0 : y.length ≠ 0) :
    simpson y x dx "first" =
      .ok (_basic_simpson y 0 ((y.length : ℤ) - 3) x dx + trapLast y x dx) := by
  unfold simpson
  rw [if_neg (by simp [hx]), if_pos hN, if_neg (by decide), if_neg h0]
  simp [eq_false (show ("first" : String) ≠ "avg" from by decide),
    eq_false (show ("first" : String) ≠ "last" from by decide)]

/-- Closed form of the even-count branch under the last policy: basic
Simpson over the last intervals plus the first-interval trapezoid. -/
theorem simpson_last_eq (y : List ℚ) (x : Option (List ℚ)) (dx : ℚ)
    (hx : xLenOk y x = true) (hN : y.length % 2 = 0) (h0 : y.length ≠ 0) :
    simpson y x dx "last" =
      .ok (_basic_simpson y 1 ((y.length : ℤ) - 2) x dx + trapFirst y x dx) := by
  unfold simpson
  rw [if_neg (by simp [hx]), if_pos hN, if_neg (by decide), if_neg h0]
  simp [eq_false (show ("last" : String) ≠ "avg" from by decide),
    eq_false (show ("last" : String) ≠ "first" from by decide)]

/-- Closed form of the even-count branch under the avg policy: both
results and both trapezoids, each pair halved. -/
theorem simpson_avg_eq (y : List ℚ) (x : Option (List ℚ)) (dx : ℚ)
    (hx : xLenOk y x = true) (hN : y.length % 2 = 0) (h0 : y.length ≠ 0) :
    simpson y x dx "avg" =
      .ok ((_basic_simpson y 0 ((y.length : ℤ) - 3) x dx
          + _basic_simpson y 1 ((y.length : ℤ) - 2) x dx) / 2
        + (trapLast y x dx + trapFirst y x dx) / 2) := by
  unfold simpson
  rw [if_neg (by simp [hx]), if_pos hN, if_neg (by decide), if_neg h0]
  simp

/-- C5: on an even sample count, the avg policy is the arithmetic mean of
the first and last policies, `(result_first + result_last)/2 +
(val_first + val_last)/2`; concretely for `y = [0,1,2,3]`,
`x = [1,2,4,8]` the three policies give 13.875, 13.75 and 14, with
`13.875 = (13.75 + 14)/2`. -/
theorem simpson_C5 :
    (∀ (y : List ℚ) (x : Option (List ℚ)) (dx : ℚ),
      xLenOk y x = true → y.length % 2 = 0 → 2 ≤ y.length →
      ∃ rf rl, simpson y x dx "first" = .ok rf ∧ simpson y x dx "last" = .ok rl ∧
        simpson y x dx "avg" = .ok ((rf + rl) / 2)) ∧
    simpson [0, 1, 2, 3] (some [1, 2, 4, 8]) 1 "avg" = .ok (111 / 8) ∧
    simpson [0, 1, 2, 3] (some [1, 2, 4, 8]) 1 "first" = .ok (55 / 4) ∧
    simpson [0, 1, 2, 3] (some [1, 2, 4, 8]) 1 "last" = .ok 14 ∧
    (111 / 8 : ℚ) = (55 / 4 + 14) / 2 := by
  refine ⟨?_, by with_unfolding_all decide, by with_unfolding_all decide,
    by with_unfolding_all decide, by norm_num⟩
  intro y x dx hx hN h2
  have h0 : y.length ≠ 0 := by omega
  refine ⟨_, _, simpson_first_eq y x dx hx hN h0, simpson_last_eq y x dx hx hN h0, ?_⟩
  rw [simpson_avg_eq y x dx hx hN h0]
  congr 1
  ring

/-- Witness for the general part of C5 at `y = [0,1,2,3]`,
`x = [1,2,4,8]`. -/
theorem simpson_C5_witness :
    ∃ rf rl, simpson [0, 1, 2, 3] (some [1, 2, 4, 8]) 1 "first" = .ok rf ∧
      simpson [0, 1, 2, 3] (some [1, 2, 4, 8]) 1 "last" = .ok rl ∧
      simpson [0, 1, 2, 3] (some [1, 2, 4, 8]) 1 "avg" = .ok ((rf + rl) / 2) :=
  simpson_C5.1 [0, 1, 2, 3] (some [1, 2, 4, 8]) 1 (by decide) (by decide) (by decide)

/-- C6: on an even sample count, the first policy returns the basic
Simpson sum over `[0, N-3]` plus the trapezoid `0.5 * step * (y[-1] +
y[-2])` with `step = x[-1] - x[-2]` when positions are given, else `dx`;
symmetrically the last policy returns the basic sum over `[1, N-2]` plus
the trapezoid on the first interval with `step = x[1] - x[0]`. -/
theorem simpson_C6 (y : List ℚ) (x : Option (List ℚ)) (dx : ℚ)
    (hx : xLenOk y x = true) (hN : y.length % 2 = 0) (h2 : 2 ≤ y.length) :
    simpson y x dx "first" =
      .ok (_basic_simpson y 0 ((y.length : ℤ) - 3) x dx
        + 1 / 2 * lastStep x dx y.length
          * (y.getD (y.length - 1) 0 + y.getD (y.length - 2) 0)) ∧
    simpson y x dx "last" =
      .ok (_basic_simpson y 1 ((y.length : ℤ) - 2) x dx
        + 1 / 2 * firstStep x dx * (y.getD 1 0 + y.getD 0 0)) := by
  have h0 : y.length ≠ 0 := by omega
  exact ⟨simpson_first_eq y x dx hx hN h0, simpson_last_eq y x dx hx hN h0⟩

/-- Witness for C6 at `y = [0,1,2,3]`, `x = [1,2,4,8]`: both policy
formulas hold and evaluate to the regression values. -/
theorem simpson_C6_witness :
    simpson [0, 1, 2, 3] (some [1, 2, 4, 8]) 1 "first" =
      .ok (_basic_simpson [0, 1, 2, 3] 0 (((4 : ℕ) : ℤ) - 3) (some [1, 2, 4, 8]) 1
        + 1 / 2 * lastStep (some [1, 2, 4, 8]) 1 4 * (3 + 2)) := by
  have h := (simpson_C6 [0, 1, 2, 3] (some [1, 2, 4, 8]) 1 (by decide) (by decide)
    (by decide)).1
  rw [h]
  with_unfolding_all decide

/-- The coefficient table is populated exactly for orders 1 through 14. -/
theorem builtincoeffs_isSome (N : ℕ) (h1 : 1 ≤ N) (h14 : N ≤ 14) :
    (_builtincoeffs N).isSome = true := by
  interval_cases N <;> rfl

/-- Once the position validation passes, the non-table path never raises
the range error: it either returns weights or fails as singular. -/
theorem nonTable_ne_range (N : ℕ) (rn : List ℚ) (equal : Bool)
    (hv : ¬(rn.headD 0 ≠ 0 ∨ rn.getLastD 0 ≠ (N : ℚ))) :
    nonTable N rn equal ≠ Except.error NCErr.range := by
  unfold nonTable
  rw [if_neg hv]
  cases hg : gaussInv (ncMatrix N rn) <;> simp [hg]

/-- C7: on the non-table path (not resolved equally spaced, or equally
spaced with an order outside the table), `newton_cotes` raises the range
error exactly when the effective positions do not start at 0 or do not
end at N, and when it raises no weights or error coefficient are
produced. -/
theorem newton_cotes_C7 (inp : NCInput) (equal : Bool)
    (hnt : (ncResolve inp equal).2.2 = true →
      _builtincoeffs (ncResolve inp equal).1 = none)
    (_hne : (ncResolve inp equal).2.1 ≠ []) :
    (newton_cotes inp equal = .error .range ↔
      ((ncResolve inp equal).2.1.headD 0 ≠ 0 ∨
        (ncResolve inp equal).2.1.getLastD 0 ≠ (((ncResolve inp equal).1 : ℕ) : ℚ))) ∧
    (newton_cotes inp equal = .error .range →
      ∀ w, newton_cotes inp equal ≠ .ok w) := by
  have hnc : newton_cotes inp equal =
      nonTable (ncResolve inp equal).1 (ncResolve inp equal).2.1
        (ncResolve inp equal).2.2 := by
    cases htab : _builtincoeffs (ncResolve inp equal).1 with
    | none =>
      cases h2 : (ncResolve inp equal).2.2 with
      | false => simp only [newton_cotes, htab, h2]
      | true => simp only [newton_cotes, htab, h2]
    | some c =>
      have h2 : (ncResolve inp equal).2.2 = false := by
        cases hb : (ncResolve inp equal).2.2 with
        | false => rfl
        | true => rw [hnt hb] at htab; exact absurd htab (by simp)
      obtain ⟨na, daa, vi, nb, db⟩ := c
      simp only [newton_cotes, htab, h2]
  rw [hnc]
  constructor
  · constructor
    · intro h
      by_contra hcond
      exact nonTable_ne_range _ _ _ hcond h
    · intro hcond
      unfold nonTable
      rw [if_pos hcond]
  · intro h w hok
    rw [h] at hok
    exact Except.noConfusion hok

/-- Witness for C7 at the irregular positions `[0, 1, 4]` whose last entry
is not N = 2: the range error is raised. -/
theorem newton_cotes_C7_witness :
    newton_cotes (.positions [0, 1, 4]) false = .error .range := by
  have h := (newton_cotes_C7 (.positions [0, 1, 4]) false
    (by with_unfolding_all decide) (by with_unfolding_all decide)).1
  exact h.mpr (by with_unfolding_all decide)

/-- Unit-spaced positions with head `a` are exactly the arithmetic list
`a, a+1, ...`. -/
theorem unit_spaced_shift : ∀ (rn : List ℚ) (a : ℚ),
    (diffL rn).all (fun d => decide (d = 1)) = true → rn.headD 0 = a → rn ≠ [] →
    rn = (List.range rn.length).map fun i : ℕ => a + (i : ℚ)
  | [], _, _, _, hne => absurd rfl hne
  | [c], a, _, hh, _ => by
    rw [List.headD_cons] at hh
    subst hh
    rw [show ([c] : List ℚ).length = 1 from rfl, show List.range 1 = [0] from rfl]
    simp
  | c :: c2 :: rest2, a, hu, hh, _ => by
    rw [show diffL (c :: c2 :: rest2) = (c2 - c) :: diffL (c2 :: rest2) from rfl,
      List.all_cons, Bool.and_eq_true] at hu
    have h1 : c2 - c = 1 := of_decide_eq_true hu.1
    rw [List.headD_cons] at hh
    have ih := unit_spaced_shift (c2 :: rest2) (a + 1) hu.2
      (by rw [List.headD_cons]; rw [hh] at h1; linarith) (by simp)
    show c :: c2 :: rest2 =
      List.map (fun i : ℕ => a + (i : ℚ)) (List.range ((c2 :: rest2).length + 1))
    rw [List.range_succ_eq_map, List.map_cons, List.map_map]
    congr 1
    · rw [hh]; simp
    · conv_lhs => rw [ih]
      apply List.map_congr_left
      intro i _
      simp only [Function.comp_apply]
      push_cast
      ring

/-- C8 counterexample: the unit-spaced positions `[1, 2, ..., 17]` have
order N = 16, outside the table; the kept positions then fail the
start-at-0 validation with the range error, while `newton_cotes(16,
equal=1)` proceeds past validation, so the two calls do not agree. -/
theorem newton_cotes_C8_counterexample :
    newton_cotes (.positions ((List.range 17).map fun i : ℕ => (i : ℚ) + 1)) false ≠
      newton_cotes (.order 16) true := by
  intro heq
  have h1 : newton_cotes (.positions ((List.range 17).map fun i : ℕ => (i : ℚ) + 1)) false
      = .error .range := by with_unfolding_all decide
  have hstep : newton_cotes (.order 16) true = nonTable 16 (qrange 17) true := rfl
  have h2 : newton_cotes (.order 16) true ≠ .error .range := by
    rw [hstep]
    apply nonTable_ne_range
    with_unfolding_all decide
  exact h2 (heq.symm.trans h1)

/-- C8 (amended): for nonempty unit-spaced positions `rn` passed with
`equal = 0`, the result agrees with `newton_cotes(len(rn)-1, equal=1)`
provided the order `N = len(rn)-1` is between 1 and 14 (table hit, which
ignores the positions) or `rn` starts at 0 (then `rn` is exactly
`arange(N+1)`). Outside these cases (N > 14 with a shifted start, and the
degenerate N = 0 with nonzero start) the kept positions fail validation
while the integer-order call does not. -/
theorem newton_cotes_C8 (rn : List ℚ) (hne : rn ≠ [])
    (hu : (diffL rn).all (fun d => decide (d = 1)) = true)
    (hcase : (1 ≤ rn.length - 1 ∧ rn.length - 1 ≤ 14) ∨ rn.headD 0 = 0) :
    newton_cotes (.positions rn) false = newton_cotes (.order (rn.length - 1)) true := by
  have hres : ncResolve (.positions rn) false = (rn.length - 1, rn, true) := by
    simp [ncResolve, hu]
  cases htab : _builtincoeffs (rn.length - 1) with
  | some c =>
    obtain ⟨na, daa, vi, nb, db⟩ := c
    have hL : newton_cotes (.positions rn) false =
        .ok (vi.map fun v => (na : ℚ) * (v : ℚ) / (daa : ℚ), (nb : ℚ) / (db : ℚ)) := by
      simp only [newton_cotes, hres, htab]
    have hR : newton_cotes (.order (rn.length - 1)) true =
        .ok (vi.map fun v => (na : ℚ) * (v : ℚ) / (daa : ℚ), (nb : ℚ) / (db : ℚ)) := by
      simp only [newton_cotes, ncResolve, htab]
    rw [hL, hR]
  | none =>
    have hN14 : ¬(1 ≤ rn.length - 1 ∧ rn.length - 1 ≤ 14) := by
      rintro ⟨ha, hb⟩
      have hs := builtincoeffs_isSome (rn.length - 1) ha hb
      rw [htab] at hs
      exact absurd hs (by simp)
    have hhead : rn.headD 0 = 0 := hcase.resolve_left hN14
    have hq2 : rn = qrange rn.length := by
      calc rn = (List.range rn.length).map fun i : ℕ => (0 : ℚ) + (i : ℚ) :=
            unit_spaced_shift rn 0 hu hhead hne
        _ = (List.range rn.length).map fun i : ℕ => (i : ℚ) :=
            List.map_congr_left fun i _ => by ring
        _ = qrange rn.length := rfl
    have hlen : rn.length - 1 + 1 = rn.length := by
      cases rn with
      | nil => exact absurd rfl hne
      | cons a t => simp
    have hL : newton_cotes (.positions rn) false = nonTable (rn.length - 1) rn true := by
      simp only [newton_cotes, hres, htab]
    have hR : newton_cotes (.order (rn.length - 1)) true =
        nonTable (rn.length - 1) (qrange (rn.length - 1 + 1)) true := by
      simp only [newton_cotes, ncResolve, htab]
    rw [hL, hR, hlen, ← hq2]

/-- Witness for the amended C8 at the unit-spaced positions `[5, 6, 7]`
(order 2, table hit despite the shifted start). -/
theorem newton_cotes_C8_witness :
    newton_cotes (.positions [5, 6, 7]) false = newton_cotes (.order 2) true :=
  newton_cotes_C8 [5, 6, 7] (by decide) (by with_unfolding_all decide)
    (Or.inl ⟨by decide, by decide⟩)

/-- C4 counterexample: the spec instance for order 2 is off by the factor
N: the table gives weights `[1, 4, 1]/3`, not `[1, 4, 1]/6`. -/
theorem newton_cotes_C4_counterexample :
    newton_cotes (.order 2) true ≠ .ok ([1 / 6, 4 / 6, 1 / 6], -(1 / 90)) := by
  with_unfolding_all decide

/-- C4 (amended): whenever the input resolves as equally spaced with an
order in the table (1 to 14), the result is the table formula
`weights = na * vi / daa`, `error = nb / db`; in particular order 1 gives
weights `[1/2, 1/2]` with error `-1/12`, and order 2 gives weights
`[1, 4, 1]/3` (not `/6` as the spec instance states) with error `-1/90`. -/
theorem newton_cotes_C4 :
    (∀ (inp : NCInput) (equal : Bool) (na daa : ℤ) (vi : List ℤ) (nb db : ℤ),
      (ncResolve inp equal).2.2 = true →
      _builtincoeffs (ncResolve inp equal).1 = some (na, daa, vi, nb, db) →
      newton_cotes inp equal =
        .ok (vi.map fun v => (na : ℚ) * (v : ℚ) / (daa : ℚ), (nb : ℚ) / (db : ℚ))) ∧
    newton_cotes (.order 1) true = .ok ([1 / 2, 1 / 2], -(1 / 12)) ∧
    newton_cotes (.order 2) true = .ok ([1 / 3, 4 / 3, 1 / 3], -(1 / 90)) := by
  refine ⟨?_, by with_unfolding_all decide, by with_unfolding_all decide⟩
  intro inp equal na daa vi nb db heq htab
  simp only [newton_cotes, htab, heq]

/-- Witness for the general part of C4 at order 1. -/
theorem newton_cotes_C4_witness :
    newton_cotes (.order 1) true =
      .ok ([(1 : ℤ), 1].map fun v => ((1 : ℤ) : ℚ) * (v : ℚ) / ((2 : ℤ) : ℚ),
        ((-1 : ℤ) : ℚ) / ((12 : ℤ) : ℚ)) :=
  newton_cotes_C4.1 (.order 1) true 1 2 [1, 1] (-1) 12 rfl rfl
